import Mathlib

/-!
Verification development for the PDF-Scraper repository
(src/PDF READER/pdf_reader_new.py and src/PDF READER/pdf_reader_program.py).

The two scripts share a `PDFReader` class with regex-based URL and number
recognizers and a per-page extraction pipeline.  This file gives a shallow
embedding of that logic over Lean lists and proves the stated properties.

Modelling conventions:
* Python strings are Lean `String` / `List Char`.  The regex classes `\d`,
  `[a-zA-Z]`, `[0-9]` and the range `[$-_]` are translated to the exact
  code-point comparisons that they denote on the ASCII inputs at issue.
* Python `float` values are modelled as exact rationals (`Rat`); every
  numeric literal appearing in the claims is exactly representable, so no
  rounding behaviour is observable in the statements proved here.
* Fallible effects (opening the document, per-image extraction) are
  modelled with explicit success flags carried by the input model.
-/

namespace PDFScraper

/-! ### Numeric values

Result type of `_extract_numbers`: Python produces `int` values for tokens
without a dot and `float` values for tokens with a dot. -/

inductive PyNum where
  | int : Int → PyNum
  | float : Rat → PyNum
deriving DecidableEq, Repr

/-- The regex class `\d` on the ASCII inputs considered: a decimal digit. -/
def isDig (c : Char) : Bool :=
  '0' ≤ c && c ≤ '9'

/-- Greedy run of digits at the head of the character list (the `\d+` and
`\d*` pieces of the pattern `-?\d+\.?\d*`). -/
def takeDigits : List Char → List Char × List Char
  | [] => ([], [])
  | c :: cs =>
    if isDig c then
      let p := takeDigits cs
      (c :: p.1, p.2)
    else ([], c :: cs)

/-- Match the pattern `\d+\.?\d*` at the head of the list: one or more
digits, an optional dot, optional further digits.  Returns the matched
token and the rest, or `none` when no match starts here. -/
def matchNumBody (l : List Char) : Option (List Char × List Char) :=
  match l with
  | [] => none
  | c :: _ =>
    if isDig c then
      let p := takeDigits l
      match p.2 with
      | c2 :: r2 =>
        if c2 = '.' then
          let q := takeDigits r2
          some (p.1 ++ '.' :: q.1, q.2)
        else some (p.1, c2 :: r2)
      | [] => some (p.1, [])
    else none

/-- Match the full pattern `-?\d+\.?\d*` at the head of the list.  A minus
sign participates only when directly followed by a digit (otherwise the
regex engine backtracks over `-?` and then fails on `\d+`). -/
def matchNum (l : List Char) : Option (List Char × List Char) :=
  match l with
  | [] => none
  | c :: rest =>
    if c = '-' then
      match matchNumBody rest with
      | some (t, r) => some ('-' :: t, r)
      | none => none
    else matchNumBody (c :: rest)

theorem takeDigits_append (l : List Char) :
    (takeDigits l).1 ++ (takeDigits l).2 = l := by
  induction l with
  | nil => simp [takeDigits]
  | cons c cs ih =>
    by_cases h : isDig c = true
    · simp [takeDigits, h, ih]
    · simp [takeDigits, h]

theorem takeDigits_snd_length (l : List Char) :
    (takeDigits l).2.length ≤ l.length := by
  conv_rhs => rw [← takeDigits_append l]
  simp

theorem takeDigits_fst_cons_of_isDig {c : Char} (cs : List Char)
    (h : isDig c = true) :
    (takeDigits (c :: cs)).1 = c :: (takeDigits cs).1 ∧
    (takeDigits (c :: cs)).2 = (takeDigits cs).2 := by
  simp [takeDigits, h]

theorem matchNumBody_length {l t r : List Char}
    (h : matchNumBody l = some (t, r)) : r.length < l.length := by
  match l with
  | [] => simp [matchNumBody] at h
  | c :: cs =>
    by_cases hd : isDig c = true
    · have hfst := (takeDigits_fst_cons_of_isDig cs hd).1
      have hlen : 0 < (takeDigits (c :: cs)).1.length := by
        rw [hfst]; simp
      have htot : (takeDigits (c :: cs)).1.length +
          (takeDigits (c :: cs)).2.length = (c :: cs).length := by
        conv_rhs => rw [← takeDigits_append (c :: cs)]
        simp
      simp only [matchNumBody, hd, if_true] at h
      rcases h2 : (takeDigits (c :: cs)).2 with _ | ⟨c2, r2⟩
      · rw [h2] at h htot
        simp at h
        obtain ⟨-, h2r⟩ := h
        cases h2r
        simp only [List.length_nil, List.length_cons] at htot ⊢
        omega
      · rw [h2] at h htot
        by_cases hdot : c2 = '.'
        · subst hdot
          simp at h
          have hr : r = (takeDigits r2).2 := h.2.symm
          have h1 : (takeDigits r2).2.length ≤ r2.length :=
            takeDigits_snd_length r2
          subst hr
          simp only [List.length_cons] at htot ⊢
          omega
        · simp [hdot] at h
          have hr : r = c2 :: r2 := h.2.symm
          subst hr
          simp only [List.length_cons] at htot ⊢
          omega
    · simp [matchNumBody, hd] at h

theorem matchNum_length {l t r : List Char}
    (h : matchNum l = some (t, r)) : r.length < l.length := by
  match l with
  | [] => simp [matchNum] at h
  | c :: cs =>
    by_cases hc : c = '-'
    · subst hc
      simp only [matchNum, if_true] at h
      rcases h2 : matchNumBody cs with _ | ⟨t2, r2⟩
      · rw [h2] at h; simp at h
      · rw [h2] at h
        simp at h
        have := matchNumBody_length h2
        have hr : r = r2 := h.2.symm
        subst hr
        simp only [List.length_cons]
        omega
    · simp only [matchNum, if_neg hc] at h
      exact matchNumBody_length h

/-- Fuel-indexed scan for the number pattern.  The fuel only serves to
make the recursion structural; `matchNum_length` shows that a fuel of the
input length never runs out. -/
def findallNumGo : Nat → List Char → List (List Char)
  | 0, _ => []
  | _, [] => []
  | fuel + 1, c :: cs =>
    match matchNum (c :: cs) with
    | some (t, r) => t :: findallNumGo fuel r
    | none => findallNumGo fuel cs

/-- The scan performed by `re.findall` for the number pattern: try a match
at every position, left to right, restarting after each match. -/
def findallNum (l : List Char) : List (List Char) :=
  findallNumGo l.length l

theorem findallNumGo_eq_of_le (fuel fuel' : Nat) (l : List Char)
    (h : l.length ≤ fuel) (h' : l.length ≤ fuel') :
    findallNumGo fuel l = findallNumGo fuel' l := by
  induction fuel using Nat.strong_induction_on generalizing l fuel' with
  | _ fuel ih =>
    match fuel, l, fuel' with
    | 0, [], 0 => rfl
    | 0, [], f' + 1 => rfl
    | f + 1, [], 0 => rfl
    | f + 1, [], f' + 1 => rfl
    | 0, c :: cs, _ => simp at h
    | f + 1, c :: cs, 0 => simp at h'
    | f + 1, c :: cs, f' + 1 =>
      simp only [findallNumGo]
      simp only [List.length_cons] at h h'
      cases hm : matchNum (c :: cs) with
      | none => exact ih f (by omega) f' cs (by omega) (by omega)
      | some p =>
        obtain ⟨t, r⟩ := p
        have hr := matchNum_length hm
        simp only [List.length_cons] at hr
        dsimp only
        rw [ih f (by omega) f' r (by omega) (by omega)]

theorem findallNum_cons (c : Char) (cs : List Char) :
    findallNum (c :: cs) =
      match matchNum (c :: cs) with
      | some (t, r) => t :: findallNum r
      | none => findallNum cs := by
  simp only [findallNum, List.length_cons, findallNumGo]
  cases hm : matchNum (c :: cs) with
  | none => exact findallNumGo_eq_of_le _ _ cs (by omega) (by omega)
  | some p =>
    obtain ⟨t, r⟩ := p
    have hr := matchNum_length hm
    simp only [List.length_cons] at hr
    dsimp only
    exact congrArg (t :: ·) (findallNumGo_eq_of_le cs.length r.length r (by omega) (by omega))

/-- Numeric value of a digit string, as computed by Python `int` on a
digit-only token (most significant digit first). -/
def digitsVal (l : List Char) : Nat :=
  l.foldl (fun a c => a * 10 + (c.toNat - '0'.toNat)) 0

/-- Split a leading minus sign off a token. -/
def numSign : List Char → Bool × List Char
  | '-' :: r => (true, r)
  | l => (false, l)

/-- The per-token conversion in `_extract_numbers`:
`float(n) if '.' in n else int(n)`.  The float value is modelled as the
exact rational denoted by the decimal token. -/
def parseNumToken (t : List Char) : PyNum :=
  let s := numSign t
  let p := takeDigits s.2
  if '.' ∈ t then
    let fr := match p.2 with
      | '.' :: r => (takeDigits r).1
      | _ => []
    let q : Rat :=
      mkRat (Int.ofNat (digitsVal p.1 * 10 ^ fr.length + digitsVal fr)) (10 ^ fr.length)
    PyNum.float (if s.1 then -q else q)
  else
    PyNum.int (if s.1 then -(digitsVal p.1 : Int) else (digitsVal p.1 : Int))

/-- `PDFReader._extract_numbers`: run `re.findall` with the pattern
`-?\d+\.?\d*` over the page text, drop empty tokens, and convert each
token (`float` when it contains a dot, `int` otherwise). -/
def extract_numbers (s : String) : List PyNum :=
  ((findallNum s.toList).filter (fun t => !t.isEmpty)).map parseNumToken

/-- Declarative form of the language of the regex `-?\d+\.?\d*`: an
optional minus sign, a non-empty block of digits, and optionally a dot
followed by zero or more digits. -/
def IsNumToken (t : List Char) : Prop :=
  ∃ (sign intd : List Char) (fr : Option (List Char)),
    (sign = [] ∨ sign = ['-']) ∧ intd ≠ [] ∧ (∀ c ∈ intd, isDig c = true) ∧
    (match fr with
     | none => t = sign ++ intd
     | some fd => (∀ c ∈ fd, isDig c = true) ∧ t = sign ++ intd ++ '.' :: fd)

theorem takeDigits_fst_digits (l : List Char) :
    ∀ c ∈ (takeDigits l).1, isDig c = true := by
  induction l with
  | nil => simp [takeDigits]
  | cons c cs ih =>
    by_cases h : isDig c = true
    · simp only [takeDigits, h, if_true]
      intro x hx
      rcases List.mem_cons.mp hx with h1 | h1
      · subst h1; exact h
      · exact ih x h1
    · simp [takeDigits, h]

theorem matchNumBody_sound {l t r : List Char}
    (h : matchNumBody l = some (t, r)) :
    ∃ (intd : List Char) (fr : Option (List Char)),
      intd ≠ [] ∧ (∀ c ∈ intd, isDig c = true) ∧
      (match fr with
       | none => t = intd
       | some fd => (∀ c ∈ fd, isDig c = true) ∧ t = intd ++ '.' :: fd) := by
  match l with
  | [] => simp [matchNumBody] at h
  | c :: cs =>
    by_cases hd : isDig c = true
    · have hfst := (takeDigits_fst_cons_of_isDig cs hd).1
      have hne : (takeDigits (c :: cs)).1 ≠ [] := by rw [hfst]; simp
      have hdig := takeDigits_fst_digits (c :: cs)
      simp only [matchNumBody, hd, if_true] at h
      rcases h2 : (takeDigits (c :: cs)).2 with _ | ⟨c2, r2⟩
      · rw [h2] at h
        simp at h
        refine ⟨(takeDigits (c :: cs)).1, none, hne, hdig, ?_⟩
        simp [h.1.symm]
      · rw [h2] at h
        by_cases hdot : c2 = '.'
        · subst hdot
          simp at h
          refine ⟨(takeDigits (c :: cs)).1, some (takeDigits r2).1, hne, hdig,
            takeDigits_fst_digits r2, ?_⟩
          simp [h.1.symm]
        · simp [hdot] at h
          refine ⟨(takeDigits (c :: cs)).1, none, hne, hdig, ?_⟩
          simp [h.1.symm]
    · simp [matchNumBody, hd] at h

theorem matchNum_sound {l t r : List Char}
    (h : matchNum l = some (t, r)) : IsNumToken t ∧ t ≠ [] := by
  match l with
  | [] => simp [matchNum] at h
  | c :: cs =>
    by_cases hc : c = '-'
    · subst hc
      simp only [matchNum, if_true] at h
      rcases h2 : matchNumBody cs with _ | ⟨t2, r2⟩
      · rw [h2] at h; simp at h
      · rw [h2] at h
        simp at h
        obtain ⟨intd, fr, hne, hdig, hshape⟩ := matchNumBody_sound h2
        have ht : t = '-' :: t2 := h.1.symm
        subst ht
        refine ⟨⟨['-'], intd, fr, Or.inr rfl, hne, hdig, ?_⟩, by simp⟩
        rcases fr with _ | fd
        · simp only at hshape ⊢
          simp [hshape]
        · simp only at hshape ⊢
          exact ⟨hshape.1, by simp [hshape.2]⟩
    · simp only [matchNum, if_neg hc] at h
      obtain ⟨intd, fr, hne, hdig, hshape⟩ := matchNumBody_sound h
      refine ⟨⟨[], intd, fr, Or.inl rfl, hne, hdig, ?_⟩, ?_⟩
      · rcases fr with _ | fd
        · simpa using hshape
        · simp only at hshape ⊢
          exact ⟨hshape.1, by simp [hshape.2]⟩
      · rcases fr with _ | fd
        · simp only at hshape
          subst hshape; exact hne
        · simp only at hshape
          rw [hshape.2]
          rcases intd with _ | ⟨a, b⟩
          · exact absurd rfl hne
          · simp

theorem findallNumGo_sound (fuel : Nat) (l : List Char) :
    ∀ t ∈ findallNumGo fuel l, IsNumToken t ∧ t ≠ [] := by
  induction fuel generalizing l with
  | zero => simp [findallNumGo]
  | succ f ih =>
    match l with
    | [] => simp [findallNumGo]
    | c :: cs =>
      intro x hx
      simp only [findallNumGo] at hx
      rcases hm : matchNum (c :: cs) with _ | ⟨t, r⟩
      · rw [hm] at hx
        exact ih cs x hx
      · rw [hm] at hx
        rcases List.mem_cons.mp hx with h1 | h1
        · subst h1; exact matchNum_sound hm
        · exact ih r x h1

theorem findallNum_sound (l : List Char) :
    ∀ t ∈ findallNum l, IsNumToken t ∧ t ≠ [] :=
  findallNumGo_sound l.length l

/-! ### URL recognizer

The source pattern is
`http[s]?://(?:[a-zA-Z]|[0-9]|[$-_@.&+]|[!*\(),]|(?:%[0-9a-fA-F][0-9a-fA-F]))+`
(in both scripts the raw string writes the fourth alternative as
`[!*\\(\\),]`, so it contains a literal backslash).  Note that `[$-_@.&+]`
is a code-point RANGE from `$` (0x24) to `_` (0x5F) together with four
symbols already inside that range; in particular `%` is inside the range,
so the `%XX` alternative can never fire (the earlier single-character
alternative always matches first and nothing follows the group), and each
iteration of the group consumes exactly one character. -/

/-- One character of the URL body: the union of the alternatives
`[a-zA-Z]`, `[0-9]`, `[$-_@.&+]` and `[!*\(),]` of the source pattern. -/
def urlChar (c : Char) : Bool :=
  (('a' ≤ c && c ≤ 'z') || ('A' ≤ c && c ≤ 'Z'))
  || ('0' ≤ c && c ≤ '9')
  || (('$' ≤ c && c ≤ '_') || c = '@' || c = '.' || c = '&' || c = '+')
  || (c = '!' || c = '*' || c = '\\' || c = '(' || c = ')' || c = ',')

/-- Greedy run of URL-body characters (the `(?:...)+` group). -/
def takeUrlBody : List Char → List Char × List Char
  | [] => ([], [])
  | c :: cs =>
    if urlChar c then
      let p := takeUrlBody cs
      (c :: p.1, p.2)
    else ([], c :: cs)

/-- Match `http[s]?://` at the head of the list, returning the optional
`s` part and the remainder.  The alternatives are tried in the same order
as the regex engine does: with the optional `s` first, without it second;
when the `s` is present but `://` does not follow, dropping the `s`
cannot help because `s` differs from `:`, which the ordered patterns
reflect. -/
def stripScheme : List Char → Option (List Char × List Char)
  | 'h' :: 't' :: 't' :: 'p' :: 's' :: ':' :: '/' :: '/' :: r => some (['s'], r)
  | 'h' :: 't' :: 't' :: 'p' :: ':' :: '/' :: '/' :: r => some ([], r)
  | _ => none

/-- Match the full URL pattern at the head of the list: the scheme
`http[s]?://` followed by a non-empty greedy run of body characters. -/
def matchUrl (l : List Char) : Option (List Char × List Char) :=
  match stripScheme l with
  | some (sp, r) =>
    let b := takeUrlBody r
    if b.1.isEmpty then none
    else some ('h' :: 't' :: 't' :: 'p' :: (sp ++ ':' :: '/' :: '/' :: b.1), b.2)
  | none => none

theorem takeUrlBody_append (l : List Char) :
    (takeUrlBody l).1 ++ (takeUrlBody l).2 = l := by
  induction l with
  | nil => simp [takeUrlBody]
  | cons c cs ih =>
    by_cases h : urlChar c = true
    · simp [takeUrlBody, h, ih]
    · simp [takeUrlBody, h]

theorem takeUrlBody_snd_length (l : List Char) :
    (takeUrlBody l).2.length ≤ l.length := by
  conv_rhs => rw [← takeUrlBody_append l]
  simp

theorem takeUrlBody_fst_chars (l : List Char) :
    ∀ c ∈ (takeUrlBody l).1, urlChar c = true := by
  induction l with
  | nil => simp [takeUrlBody]
  | cons c cs ih =>
    by_cases h : urlChar c = true
    · simp only [takeUrlBody, h, if_true]
      intro x hx
      rcases List.mem_cons.mp hx with h1 | h1
      · subst h1; exact h
      · exact ih x h1
    · simp [takeUrlBody, h]

theorem stripScheme_some {l sp r : List Char}
    (h : stripScheme l = some (sp, r)) :
    (sp = [] ∨ sp = ['s']) ∧
    l = 'h' :: 't' :: 't' :: 'p' :: (sp ++ ':' :: '/' :: '/' :: r) := by
  unfold stripScheme at h
  split at h
  · simp at h
    obtain ⟨h1, h2⟩ := h
    subst h1
    subst h2
    exact ⟨Or.inr rfl, by simp⟩
  · simp at h
    obtain ⟨h1, h2⟩ := h
    subst h1
    subst h2
    exact ⟨Or.inl rfl, by simp⟩
  · simp at h

theorem matchUrl_some {l t r : List Char} (h : matchUrl l = some (t, r)) :
    ∃ (sp body : List Char),
      (sp = [] ∨ sp = ['s']) ∧ body ≠ [] ∧ (∀ c ∈ body, urlChar c = true) ∧
      t = 'h' :: 't' :: 't' :: 'p' :: (sp ++ ':' :: '/' :: '/' :: body) := by
  unfold matchUrl at h
  rcases hs : stripScheme l with _ | ⟨sp, rest⟩
  · rw [hs] at h; simp at h
  · rw [hs] at h
    simp only at h
    by_cases hb : (takeUrlBody rest).1.isEmpty
    · rw [if_pos hb] at h; simp at h
    · rw [if_neg hb] at h
      simp at h
      obtain ⟨hsp, -⟩ := stripScheme_some hs
      refine ⟨sp, (takeUrlBody rest).1, hsp, ?_, takeUrlBody_fst_chars rest, h.1.symm⟩
      intro hnil
      rw [hnil] at hb
      simp at hb

theorem matchUrl_length {l t r : List Char}
    (h : matchUrl l = some (t, r)) : r.length < l.length := by
  unfold matchUrl at h
  rcases hs : stripScheme l with _ | ⟨sp, rest⟩
  · rw [hs] at h; simp at h
  · rw [hs] at h
    simp only at h
    by_cases hb : (takeUrlBody rest).1.isEmpty
    · rw [if_pos hb] at h; simp at h
    · rw [if_neg hb] at h
      simp at h
      obtain ⟨-, hl⟩ := stripScheme_some hs
      have hr : r = (takeUrlBody rest).2 := h.2.symm
      have hrest := takeUrlBody_snd_length rest
      have : rest.length < l.length := by
        rw [hl]
        simp only [List.length_cons, List.length_append]
        omega
      rw [hr]
      omega

/-- Fuel-indexed scan for the URL pattern, mirroring `findallNumGo`. -/
def findallUrlGo : Nat → List Char → List (List Char)
  | 0, _ => []
  | _, [] => []
  | fuel + 1, c :: cs =>
    match matchUrl (c :: cs) with
    | some (t, r) => t :: findallUrlGo fuel r
    | none => findallUrlGo fuel cs

/-- The scan performed by `re.findall` for the URL pattern. -/
def findallUrl (l : List Char) : List (List Char) :=
  findallUrlGo l.length l

theorem findallUrlGo_sound (fuel : Nat) (l : List Char) :
    ∀ t ∈ findallUrlGo fuel l,
      ∃ (sp body : List Char),
        (sp = [] ∨ sp = ['s']) ∧ body ≠ [] ∧ (∀ c ∈ body, urlChar c = true) ∧
        t = 'h' :: 't' :: 't' :: 'p' :: (sp ++ ':' :: '/' :: '/' :: body) := by
  induction fuel generalizing l with
  | zero => simp [findallUrlGo]
  | succ f ih =>
    match l with
    | [] => simp [findallUrlGo]
    | c :: cs =>
      intro x hx
      simp only [findallUrlGo] at hx
      rcases hm : matchUrl (c :: cs) with _ | ⟨t, r⟩
      · rw [hm] at hx
        exact ih cs x hx
      · rw [hm] at hx
        rcases List.mem_cons.mp hx with h1 | h1
        · subst h1; exact matchUrl_some hm
        · exact ih r x h1

theorem findallUrl_sound (l : List Char) :
    ∀ t ∈ findallUrl l,
      ∃ (sp body : List Char),
        (sp = [] ∨ sp = ['s']) ∧ body ≠ [] ∧ (∀ c ∈ body, urlChar c = true) ∧
        t = 'h' :: 't' :: 't' :: 'p' :: (sp ++ ':' :: '/' :: '/' :: body) :=
  findallUrlGo_sound l.length l

/-- `PDFReader._extract_urls`: `re.findall` with the URL pattern followed
by `list(set(urls))`.  Python set iteration order is unspecified; this
model uses a deterministic duplicate-removal as a stand-in for that
order, and the set-level statements below go through `toFinset`, which is
order-independent. -/
def extract_urls (s : String) : List String :=
  ((findallUrl s.toList).map (fun t => String.mk t)).dedup

/-- The set of distinct URL substrings returned by `_extract_urls`. -/
def extract_urls_set (s : String) : Finset String :=
  (extract_urls s).toFinset

/-! ### The character set claimed by the specification for URL bodies

The specification describes the URL body as characters drawn from
letters, digits and the LITERAL symbol set listed in `[$-_@.&+]` and
`[!*(),]`, or percent-encoded octets `%XX`.  The following definitions
transcribe that reading so it can be compared with the range-based class
the code actually uses. -/

/-- A single character of the claimed set: letters, digits, and the
symbols `$ - _ @ . & + ! * ( ) ,` read literally. -/
def claimedChar (c : Char) : Bool :=
  (('a' ≤ c && c ≤ 'z') || ('A' ≤ c && c ≤ 'Z'))
  || ('0' ≤ c && c ≤ '9')
  || (c = '$' || c = '-' || c = '_' || c = '@' || c = '.' || c = '&' || c = '+')
  || (c = '!' || c = '*' || c = '(' || c = ')' || c = ',')

/-- A hexadecimal digit, for the `%XX` percent-encoded octets. -/
def isHexDig (c : Char) : Bool :=
  ('0' ≤ c && c ≤ '9') || ('a' ≤ c && c ≤ 'f') || ('A' ≤ c && c ≤ 'F')

/-- Whether a URL body consists of claimed-set characters and
percent-encoded octets only, as the specification sentence states. -/
def claimedBody : List Char → Bool
  | [] => true
  | '%' :: h1 :: h2 :: r => isHexDig h1 && isHexDig h2 && claimedBody r
  | c :: r => claimedChar c && claimedBody r

/-! ### Data model of the extraction pipeline

`PDFReader.__init__` creates a dict `self.data` with the five lists
below; `extract_all` appends to them and returns `self.data`. -/

/-- An entry of `data` at key `text`: `{page, content}`. -/
structure TextEntry where
  page : Nat
  content : String
deriving DecidableEq, Repr

/-- An entry of `data` at key `tables`: `{page, table_number, data}`.
A table is a list of rows; a cell is text or Python `None`. -/
structure TableEntry where
  page : Nat
  table_number : Nat
  data : List (List (Option String))
deriving DecidableEq, Repr

/-- An entry of `data` at key `urls`: `{page, url}`. -/
structure UrlEntry where
  page : Nat
  url : String
deriving DecidableEq, Repr

/-- An entry of `data` at key `numbers`: `{page, numbers}`. -/
structure NumEntry where
  page : Nat
  numbers : List PyNum
deriving DecidableEq, Repr

/-- An entry of `data` at key `images`.  The full-fidelity variant fills
`format`, `width`, `height` and `byteSize` and, when saving, `saved_as`;
the lightweight variant fills `saved_as` only. -/
structure ImageEntry where
  page : Nat
  image_number : Nat
  saved_as : Option String
  format : Option String
  width : Option Nat
  height : Option Nat
  byteSize : Option Nat
deriving DecidableEq, Repr

/-- The dict `self.data` of a `PDFReader` instance. -/
structure PDFData where
  text : List TextEntry
  tables : List TableEntry
  images : List ImageEntry
  urls : List UrlEntry
  numbers : List NumEntry
deriving DecidableEq, Repr

/-- The fresh `self.data` built by `PDFReader.__init__`. -/
def PDFData.empty : PDFData := ⟨[], [], [], [], []⟩

/-- Field-wise concatenation of two data dicts.  All mutations performed
by `extract_all` append at the tails of the five lists, so the state
after a call decomposes as the prior state followed by the freshly
produced entries. -/
def PDFData.append (a b : PDFData) : PDFData :=
  ⟨a.text ++ b.text, a.tables ++ b.tables, a.images ++ b.images,
   a.urls ++ b.urls, a.numbers ++ b.numbers⟩

/-- One embedded image object of a page, as enumerated by
`page.get_images(full=True)`.  `extractOk` records whether the body of
the per-image `try` block (`extract_image`, the optional file write and
the PIL size probe) succeeds on this object. -/
structure FitzImage where
  extractOk : Bool
  ext : String
  width : Nat
  height : Nat
  byteSize : Nat
deriving DecidableEq, Repr

/-- One page of the source document.  `text` is the result of
`page.extract_text()` (`none` models Python `None`); `getImagesFails`
records whether the page-level image enumeration itself raises, which is
outside the per-image `try` block; `plumberImages` is the length of the
`page.images` metadata list used by the lightweight variant, whose
elements are otherwise unobserved. -/
structure Page where
  text : Option String
  tables : List (List (List (Option String)))
  fitzImages : List FitzImage
  getImagesFails : Bool
  plumberImages : Nat
deriving DecidableEq, Repr

/-- A source document: whether the path opens as a valid PDF, and its
pages in physical order. -/
structure PDF where
  openOk : Bool
  pages : List Page
deriving DecidableEq, Repr

/-- Python truthiness of the extracted text (`if text:`): neither `None`
nor the empty string. -/
def truthyText : Option String → Bool
  | none => false
  | some s => !(s == "")

/-- The content of a truthy text (used only under `truthyText`). -/
def theText : Option String → String
  | none => ""
  | some s => s

/-! ### Full-fidelity image pass (`PDFReader._extract_images_with_fitz`)

The method opens the document with `fitz.open` (plain call, no `with`
block), loops over pages and over `page.get_images(full=True)`, wraps
ONLY the per-image extraction in `try/except Exception`, and calls
`pdf_document.close()` after the loop.  A page-level exception therefore
propagates without reaching the `close()` call. -/

/-- The image-entry dict appended by the fitz pass for one successfully
extracted image (`save_images` controls the file write and the presence
of the `saved_as` key). -/
def mkFitzEntry (save : Bool) (dir : String) (p m : Nat) (im : FitzImage) : ImageEntry :=
  { page := p
    image_number := m
    saved_as :=
      if save then some (dir ++ "/page" ++ toString p ++ "_img" ++ toString m ++ "." ++ im.ext)
      else none
    format := some im.ext
    width := some im.width
    height := some im.height
    byteSize := some im.byteSize }

/-- The per-image loop of the fitz pass on one page: images are
enumerated with 1-based indices; a failing image produces a logged
warning `(page, image_number)` instead of an entry, and the loop
continues. -/
def fitzImagesLoop (save : Bool) (dir : String) (p : Nat) :
    Nat → List FitzImage → List ImageEntry × List (Nat × Nat)
  | _, [] => ([], [])
  | m, im :: rest =>
    let o := fitzImagesLoop save dir p (m + 1) rest
    if im.extractOk then (mkFitzEntry save dir p m im :: o.1, o.2)
    else (o.1, (p, m) :: o.2)

/-- The page loop of the fitz pass, starting at page number `k`.  The
third component is `false` when a page-level `get_images` failure raised
out of the loop (aborting the pass before `close()`). -/
def fitzLoop (save : Bool) (dir : String) :
    Nat → List Page → List ImageEntry × List (Nat × Nat) × Bool
  | _, [] => ([], [], true)
  | k, pg :: rest =>
    if pg.getImagesFails then ([], [], false)
    else
      let o := fitzImagesLoop save dir k 1 pg.fitzImages
      let o2 := fitzLoop save dir (k + 1) rest
      (o.1 ++ o2.1, o.2 ++ o2.2.1, o2.2.2)

/-- Outcome of `_extract_images_with_fitz`: the image entries appended to
`self.data`, the per-image warnings printed, whether the method returned
normally, and whether `pdf_document.close()` was reached. -/
structure FitzOutcome where
  images : List ImageEntry
  warnings : List (Nat × Nat)
  ok : Bool
  closed : Bool
deriving DecidableEq, Repr

/-- `PDFReader._extract_images_with_fitz` (assuming the document opens;
the caller `extract_all` reaches it only on an openable path in the model
runs below). -/
def extract_images_with_fitz (save : Bool) (dir : String) (pdf : PDF) : FitzOutcome :=
  let o := fitzLoop save dir 1 pdf.pages
  { images := o.1, warnings := o.2.1, ok := o.2.2, closed := o.2.2 }

/-! ### The pdfplumber page loop shared by both `extract_all` variants

Lines 44-79 of pdf_reader_new.py and lines 38-83 of
pdf_reader_program.py: per page extract text; if truthy, append the text
entry, extend `urls` with the per-page distinct URLs and append a
`numbers` entry when any numeric token was found; then append the page
tables; the program variant additionally appends lightweight image
entries when `save_images` is set (`withImages` distinguishes the two
variants). -/

/-- The lightweight image-entry dict of pdf_reader_program.py: a
synthesized png path, nothing else (no file is written). -/
def mkLightEntry (dir : String) (p m : Nat) : ImageEntry :=
  { page := p
    image_number := m
    saved_as := some (dir ++ "/page" ++ toString p ++ "_img" ++ toString m ++ ".png")
    format := none
    width := none
    height := none
    byteSize := none }

/-- The body of the pdfplumber loop for one page with 1-based number
`pno`. -/
def plumberPageStep (withImages save : Bool) (dir : String) (pno : Nat)
    (pg : Page) (d : PDFData) : PDFData :=
  let d1 :=
    if truthyText pg.text then
      let t := theText pg.text
      let da := { d with text := d.text ++ [⟨pno, t⟩] }
      let urls := extract_urls t
      let db :=
        if urls.isEmpty then da
        else { da with urls := da.urls ++ urls.map (fun u => ⟨pno, u⟩) }
      let nums := extract_numbers t
      if nums.isEmpty then db
      else { db with numbers := db.numbers ++ [⟨pno, nums⟩] }
    else d
  let d2 :=
    if pg.tables.isEmpty then d1
    else
      { d1 with tables :=
          d1.tables ++ (List.enumFrom 1 pg.tables).map (fun q => ⟨pno, q.1, q.2⟩) }
  if withImages && save then
    { d2 with images :=
        d2.images ++ (List.range pg.plumberImages).map (fun i => mkLightEntry dir pno (i + 1)) }
  else d2

/-- The pdfplumber page loop (`for page_num, page in enumerate(pdf.pages,
start=1)`), starting at page number `k`. -/
def plumberLoop (withImages save : Bool) (dir : String) :
    Nat → List Page → PDFData → PDFData
  | _, [], d => d
  | k, pg :: rest, d =>
    plumberLoop withImages save dir (k + 1) rest (plumberPageStep withImages save dir k pg d)

/-- The mutation of `self.data` performed by a successful
`extract_all` of pdf_reader_program.py. -/
def extract_all_program_data (save : Bool) (dir : String) (pdf : PDF) (d : PDFData) : PDFData :=
  plumberLoop true save dir 1 pdf.pages d

/-- The mutation of `self.data` performed by a successful `extract_all`
of pdf_reader_new.py: first the fitz image pass appends all image
entries, then the pdfplumber loop (without an image step) appends the
text, URL, number and table entries. -/
def extract_all_new_data (save : Bool) (dir : String) (pdf : PDF) (d : PDFData) : PDFData :=
  let fz := extract_images_with_fitz save dir pdf
  plumberLoop false save dir 1 pdf.pages { d with images := d.images ++ fz.images }

/-- Observable outcome of one `extract_all` invocation: the returned
dict (`none` when an exception propagated and nothing was returned) and
the directories created on the filesystem. -/
structure RunResult where
  result : Option PDFData
  createdDirs : List String
deriving DecidableEq, Repr

/-- `extract_all` of pdf_reader_program.py: `os.makedirs(output_dir)`
runs first when `save_images` is set; then `pdfplumber.open` either
fails (the exception propagates, nothing is returned) or the page loop
runs to completion. -/
def extract_all_program (save : Bool) (dir : String) (pdf : PDF) (d : PDFData) : RunResult :=
  let dirs := if save then [dir] else []
  if pdf.openOk then
    { result := some (extract_all_program_data save dir pdf d), createdDirs := dirs }
  else
    { result := none, createdDirs := dirs }

/-- `extract_all` of pdf_reader_new.py: `os.makedirs(output_dir)` runs
first when `save_images` is set; then the fitz pass (whose `fitz.open`
fails on an unopenable path, and whose page-level failures propagate);
then the pdfplumber loop. -/
def extract_all_new (save : Bool) (dir : String) (pdf : PDF) (d : PDFData) : RunResult :=
  let dirs := if save then [dir] else []
  if pdf.openOk then
    let fz := extract_images_with_fitz save dir pdf
    if fz.ok then
      { result := some (extract_all_new_data save dir pdf d), createdDirs := dirs }
    else
      { result := none, createdDirs := dirs }
  else
    { result := none, createdDirs := dirs }

/-! ### Event traces of the two pipeline variants (for the per-page
ordering claims).  One event per extraction step, tagged with the 1-based
page number it works on. -/

/-- Pipeline events: text extraction, the URL/number scan of the text,
table extraction and image extraction for a page. -/
inductive Ev where
  | text (p : Nat)
  | scan (p : Nat)
  | tables (p : Nat)
  | images (p : Nat)
deriving DecidableEq, Repr

/-- The events of one iteration of the pdfplumber loop of
pdf_reader_program.py, in source order: extract text; scan it when
truthy; extract tables; extract images when `save_images` is set. -/
def pageEvProgram (save : Bool) (p : Nat) (pg : Page) : List Ev :=
  [Ev.text p] ++ (if truthyText pg.text then [Ev.scan p] else [])
    ++ [Ev.tables p] ++ (if save then [Ev.images p] else [])

/-- The events of one iteration of the pdfplumber loop of
pdf_reader_new.py (no image step in this loop). -/
def pageEvNew (p : Nat) (pg : Page) : List Ev :=
  [Ev.text p] ++ (if truthyText pg.text then [Ev.scan p] else []) ++ [Ev.tables p]

/-- The trace of the pdfplumber loop of pdf_reader_program.py from page
number `k` on. -/
def traceProgramFrom (save : Bool) : Nat → List Page → List Ev
  | _, [] => []
  | k, pg :: rest => pageEvProgram save k pg ++ traceProgramFrom save (k + 1) rest

/-- The full per-page trace of `extract_all` of pdf_reader_program.py. -/
def traceProgram (save : Bool) (pdf : PDF) : List Ev :=
  traceProgramFrom save 1 pdf.pages

/-- The trace of the pdfplumber loop of pdf_reader_new.py from page
number `k` on. -/
def traceNewFrom : Nat → List Page → List Ev
  | _, [] => []
  | k, pg :: rest => pageEvNew k pg ++ traceNewFrom (k + 1) rest

/-- The full trace of `extract_all` of pdf_reader_new.py: the fitz image
pass visits every page first (regardless of `save_images`), then the
pdfplumber loop extracts text and tables. -/
def traceNew (pdf : PDF) : List Ev :=
  (List.range pdf.pages.length).map (fun i => Ev.images (i + 1)) ++ traceNewFrom 1 pdf.pages

/-! ### The declarative description of `pages_text`

Written from the specification sentence: one entry per page that yielded
non-empty text, carrying the 1-based page number, in page order. -/

/-- The `pages_text` sequence the specification describes, for pages
numbered from `k` on. -/
def pagesTextSpec : Nat → List Page → List TextEntry
  | _, [] => []
  | k, pg :: rest =>
    (if truthyText pg.text then [⟨k, theText pg.text⟩] else []) ++ pagesTextSpec (k + 1) rest

theorem plumberPageStep_text (withImages save : Bool) (dir : String) (pno : Nat)
    (pg : Page) (d : PDFData) :
    (plumberPageStep withImages save dir pno pg d).text =
      d.text ++ (if truthyText pg.text then [⟨pno, theText pg.text⟩] else []) := by
  unfold plumberPageStep
  by_cases ht : truthyText pg.text <;>
    by_cases hu : (extract_urls (theText pg.text)).isEmpty <;>
    by_cases hn : (extract_numbers (theText pg.text)).isEmpty <;>
    by_cases htb : pg.tables.isEmpty <;>
    by_cases hw : (withImages && save) = true <;>
    simp [ht, hu, hn, htb, hw]

theorem plumberLoop_text (withImages save : Bool) (dir : String) :
    ∀ (k : Nat) (pages : List Page) (d : PDFData),
      (plumberLoop withImages save dir k pages d).text =
        d.text ++ pagesTextSpec k pages := by
  intro k pages
  induction pages generalizing k with
  | nil => intro d; simp [plumberLoop, pagesTextSpec]
  | cons pg rest ih =>
    intro d
    simp only [plumberLoop, pagesTextSpec]
    rw [ih (k + 1), plumberPageStep_text]
    simp

theorem pagesTextSpec_page_ge :
    ∀ (k : Nat) (pages : List Page) (e : TextEntry),
      e ∈ pagesTextSpec k pages → k ≤ e.page := by
  intro k pages
  induction pages generalizing k with
  | nil => simp [pagesTextSpec]
  | cons pg rest ih =>
    intro e he
    simp only [pagesTextSpec, List.mem_append] at he
    rcases he with h1 | h1
    · by_cases ht : truthyText pg.text
      · simp [ht] at h1
        subst h1
        simp
      · simp [ht] at h1
    · have := ih (k + 1) e h1
      omega

theorem pagesTextSpec_chain (k : Nat) (pages : List Page) :
    List.Chain' (fun a b => a.page < b.page) (pagesTextSpec k pages) := by
  induction pages generalizing k with
  | nil => simp [pagesTextSpec]
  | cons pg rest ih =>
    simp only [pagesTextSpec]
    by_cases ht : truthyText pg.text
    · simp only [ht, if_true, List.singleton_append]
      refine List.chain'_cons'.mpr ⟨?_, ih (k + 1)⟩
      intro y hy
      have := pagesTextSpec_page_ge (k + 1) rest y (List.mem_of_mem_head? hy)
      simp
      omega
    · simp only [ht, if_false, List.nil_append]
      exact ih (k + 1)

theorem pagesTextSpec_content :
    ∀ (k : Nat) (pages : List Page) (e : TextEntry),
      e ∈ pagesTextSpec k pages → e.content ≠ "" := by
  intro k pages
  induction pages generalizing k with
  | nil => simp [pagesTextSpec]
  | cons pg rest ih =>
    intro e he
    simp only [pagesTextSpec, List.mem_append] at he
    rcases he with h1 | h1
    · rcases hpt : pg.text with _ | s
      · rw [hpt] at h1
        simp [truthyText] at h1
      · rw [hpt] at h1
        by_cases hs : s = ""
        · subst hs
          simp [truthyText] at h1
        · simp [truthyText, hs, theText] at h1
          subst h1
          simpa [theText]
    · exact ih (k + 1) e h1

/-! ### Accumulation lemmas: every mutation of `self.data` appends at the
tails of the five lists. -/

theorem PDFData.append_empty_right (d : PDFData) :
    PDFData.append d PDFData.empty = d := by
  simp [PDFData.append, PDFData.empty]

theorem PDFData.append_empty_left (d : PDFData) :
    PDFData.append PDFData.empty d = d := by
  simp [PDFData.append, PDFData.empty]

theorem plumberPageStep_append (withImages save : Bool) (dir : String)
    (k : Nat) (pg : Page) (a b : PDFData) :
    plumberPageStep withImages save dir k pg (PDFData.append a b) =
      PDFData.append a (plumberPageStep withImages save dir k pg b) := by
  unfold plumberPageStep
  by_cases ht : truthyText pg.text <;>
    by_cases hu : (extract_urls (theText pg.text)).isEmpty <;>
    by_cases hn : (extract_numbers (theText pg.text)).isEmpty <;>
    by_cases htb : pg.tables.isEmpty <;>
    by_cases hw : (withImages && save) = true <;>
    simp [ht, hu, hn, htb, hw, PDFData.append]

theorem plumberLoop_append (withImages save : Bool) (dir : String) :
    ∀ (k : Nat) (pages : List Page) (a b : PDFData),
      plumberLoop withImages save dir k pages (PDFData.append a b) =
        PDFData.append a (plumberLoop withImages save dir k pages b) := by
  intro k pages
  induction pages generalizing k with
  | nil => intro a b; simp [plumberLoop]
  | cons pg rest ih =>
    intro a b
    simp only [plumberLoop]
    rw [plumberPageStep_append, ih (k + 1)]

theorem extract_all_program_data_append (save : Bool) (dir : String)
    (pdf : PDF) (d : PDFData) :
    extract_all_program_data save dir pdf d =
      PDFData.append d (extract_all_program_data save dir pdf PDFData.empty) := by
  unfold extract_all_program_data
  conv_lhs => rw [← PDFData.append_empty_right d]
  rw [plumberLoop_append]

theorem extract_all_new_data_append (save : Bool) (dir : String)
    (pdf : PDF) (d : PDFData) :
    extract_all_new_data save dir pdf d =
      PDFData.append d (extract_all_new_data save dir pdf PDFData.empty) := by
  unfold extract_all_new_data
  dsimp only
  have h1 : ∀ e : PDFData,
      { e with images := e.images ++ (extract_images_with_fitz save dir pdf).images } =
        PDFData.append e ⟨[], [], (extract_images_with_fitz save dir pdf).images, [], []⟩ := by
    intro e
    simp [PDFData.append]
  rw [h1, h1, plumberLoop_append, plumberLoop_append, PDFData.append_empty_left]

/-! ### Declarative description of the fitz image pass -/

/-- For one page: the entries recorded are exactly those of the
successfully extracted images, each keeping the 1-based position it has
in the embedded-image list of the page. -/
def pageImagesSpec (save : Bool) (dir : String) (k : Nat) (imgs : List FitzImage) :
    List ImageEntry :=
  (List.enumFrom 1 imgs).filterMap
    (fun q => if q.2.extractOk then some (mkFitzEntry save dir k q.1 q.2) else none)

/-- For one page: one warning per failed image, tagged with the page
number and the 1-based position of the failed image. -/
def pageWarnSpec (k : Nat) (imgs : List FitzImage) : List (Nat × Nat) :=
  (List.enumFrom 1 imgs).filterMap
    (fun q => if q.2.extractOk then none else some (k, q.1))

/-- The image entries of the whole pass, pages numbered from `k` on. -/
def docImagesSpec (save : Bool) (dir : String) : Nat → List Page → List ImageEntry
  | _, [] => []
  | k, pg :: rest =>
    pageImagesSpec save dir k pg.fitzImages ++ docImagesSpec save dir (k + 1) rest

/-- The warnings of the whole pass, pages numbered from `k` on. -/
def docWarnSpec : Nat → List Page → List (Nat × Nat)
  | _, [] => []
  | k, pg :: rest => pageWarnSpec k pg.fitzImages ++ docWarnSpec (k + 1) rest

theorem fitzImagesLoop_spec (save : Bool) (dir : String) (p : Nat) :
    ∀ (m : Nat) (imgs : List FitzImage),
      fitzImagesLoop save dir p m imgs =
        ((List.enumFrom m imgs).filterMap
          (fun q => if q.2.extractOk then some (mkFitzEntry save dir p q.1 q.2) else none),
         (List.enumFrom m imgs).filterMap
          (fun q => if q.2.extractOk then none else some (p, q.1))) := by
  intro m imgs
  induction imgs generalizing m with
  | nil => simp [fitzImagesLoop, List.enumFrom]
  | cons im rest ih =>
    simp only [fitzImagesLoop, List.enumFrom_cons, List.filterMap_cons]
    by_cases hok : im.extractOk = true
    · simp [hok, ih (m + 1)]
    · simp [hok, ih (m + 1)]

theorem fitzLoop_spec (save : Bool) (dir : String) :
    ∀ (k : Nat) (pages : List Page),
      (∀ pg ∈ pages, pg.getImagesFails = false) →
      fitzLoop save dir k pages =
        (docImagesSpec save dir k pages, docWarnSpec k pages, true) := by
  intro k pages
  induction pages generalizing k with
  | nil => intro; simp [fitzLoop, docImagesSpec, docWarnSpec]
  | cons pg rest ih =>
    intro h
    have hpg : pg.getImagesFails = false := h pg (List.mem_cons_self pg rest)
    have hrest : ∀ q ∈ rest, q.getImagesFails = false :=
      fun q hq => h q (List.mem_cons_of_mem pg hq)
    simp only [fitzLoop, hpg, Bool.false_eq_true, if_false,
      fitzImagesLoop_spec, ih (k + 1) hrest, docImagesSpec, docWarnSpec,
      pageImagesSpec, pageWarnSpec]

theorem extract_images_with_fitz_spec (save : Bool) (dir : String) (pdf : PDF)
    (h : ∀ pg ∈ pdf.pages, pg.getImagesFails = false) :
    extract_images_with_fitz save dir pdf =
      { images := docImagesSpec save dir 1 pdf.pages
        warnings := docWarnSpec 1 pdf.pages
        ok := true
        closed := true } := by
  unfold extract_images_with_fitz
  rw [fitzLoop_spec save dir 1 pdf.pages h]

/-! ### Per-page projection of the recorded image numbers -/

/-- The image numbers recorded for page `p`, in recording order. -/
def imageNumbersOnPage (es : List ImageEntry) (p : Nat) : List Nat :=
  (es.filter (fun e => e.page == p)).map (fun e => e.image_number)

/-- The 1-based positions of the successfully extracted images of a
page's embedded-image list. -/
def okPositions (imgs : List FitzImage) : List Nat :=
  (List.enumFrom 1 imgs).filterMap
    (fun q => if q.2.extractOk then some q.1 else none)

theorem pageImagesSpec_page (save : Bool) (dir : String) (k : Nat)
    (imgs : List FitzImage) :
    ∀ e ∈ pageImagesSpec save dir k imgs, e.page = k := by
  intro e he
  obtain ⟨q, -, hq⟩ := List.mem_filterMap.mp he
  by_cases hok : q.2.extractOk = true
  · rw [if_pos hok] at hq
    cases hq
    rfl
  · simp [hok] at hq

theorem docImagesSpec_page_ge (save : Bool) (dir : String) :
    ∀ (k : Nat) (pages : List Page) (e : ImageEntry),
      e ∈ docImagesSpec save dir k pages → k ≤ e.page := by
  intro k pages
  induction pages generalizing k with
  | nil => simp [docImagesSpec]
  | cons pg rest ih =>
    intro e he
    simp only [docImagesSpec, List.mem_append] at he
    rcases he with h1 | h1
    · rw [pageImagesSpec_page save dir k pg.fitzImages e h1]
    · have := ih (k + 1) e h1
      omega

theorem filter_page_of_ne (es : List ImageEntry) (k p : Nat)
    (hall : ∀ e ∈ es, e.page = k) (hne : k ≠ p) :
    es.filter (fun e => e.page == p) = [] := by
  induction es with
  | nil => simp
  | cons e rest ih =>
    have he : e.page = k := hall e (List.mem_cons_self e rest)
    have hrest : ∀ x ∈ rest, x.page = k := fun x hx => hall x (List.mem_cons_of_mem e hx)
    simp only [List.filter_cons]
    have : (e.page == p) = false := by
      simp [he]
      exact hne
    rw [this]
    simp only [Bool.false_eq_true, if_false]
    exact ih hrest

theorem filter_page_all (es : List ImageEntry) (p : Nat)
    (hall : ∀ e ∈ es, e.page = p) :
    es.filter (fun e => e.page == p) = es := by
  induction es with
  | nil => simp
  | cons e rest ih =>
    have he : e.page = p := hall e (List.mem_cons_self e rest)
    have hrest : ∀ x ∈ rest, x.page = p := fun x hx => hall x (List.mem_cons_of_mem e hx)
    simp only [List.filter_cons]
    have : (e.page == p) = true := by simp [he]
    rw [this]
    simp only [if_true]
    rw [ih hrest]

theorem docImagesSpec_filter_high (save : Bool) (dir : String) :
    ∀ (k : Nat) (pages : List Page) (p : Nat), p < k →
      (docImagesSpec save dir k pages).filter (fun e => e.page == p) = [] := by
  intro k pages
  induction pages generalizing k with
  | nil => simp [docImagesSpec]
  | cons pg rest ih =>
    intro p hp
    simp only [docImagesSpec, List.filter_append]
    rw [filter_page_of_ne _ k p (pageImagesSpec_page save dir k pg.fitzImages) (by omega),
      ih (k + 1) p (by omega)]
    simp

theorem pageImagesSpec_numbers (save : Bool) (dir : String) (k : Nat)
    (imgs : List FitzImage) :
    (pageImagesSpec save dir k imgs).map (fun e => e.image_number) = okPositions imgs := by
  unfold pageImagesSpec okPositions
  generalize 1 = m
  induction imgs generalizing m with
  | nil => simp [List.enumFrom]
  | cons im rest ih =>
    simp only [List.enumFrom_cons, List.filterMap_cons]
    by_cases hok : im.extractOk = true
    · simp only [hok, if_true, List.map_cons]
      rw [ih (m + 1)]
      simp [mkFitzEntry]
    · simp only [hok, Bool.false_eq_true, if_false]
      exact ih (m + 1)

theorem docImagesSpec_on_page (save : Bool) (dir : String) :
    ∀ (k : Nat) (pages : List Page) (i : Nat) (pg : Page),
      pages.get? i = some pg →
      imageNumbersOnPage (docImagesSpec save dir k pages) (k + i) =
        okPositions pg.fitzImages := by
  intro k pages
  induction pages generalizing k with
  | nil => intro i pg h; simp at h
  | cons q rest ih =>
    intro i pg h
    match i with
    | 0 =>
      simp only [List.get?] at h
      have hq : q = pg := by injection h
      rw [← hq]
      unfold imageNumbersOnPage
      simp only [docImagesSpec, List.filter_append, Nat.add_zero]
      rw [filter_page_all _ k (pageImagesSpec_page save dir k q.fitzImages),
        docImagesSpec_filter_high save dir (k + 1) rest k (by omega)]
      simp only [List.append_nil]
      exact pageImagesSpec_numbers save dir k q.fitzImages
    | i + 1 =>
      simp only [List.get?] at h
      have hrec := ih (k + 1) i pg h
      unfold imageNumbersOnPage at hrec ⊢
      simp only [docImagesSpec, List.filter_append]
      rw [filter_page_of_ne _ k (k + (i + 1))
        (pageImagesSpec_page save dir k q.fitzImages) (by omega)]
      simp only [List.nil_append]
      have heq : k + (i + 1) = k + 1 + i := by omega
      rw [heq]
      exact hrec

/-! ### Trace lemmas -/

/-- Whether an event is a text-extraction event. -/
def isTextEv : Ev → Bool
  | Ev.text _ => true
  | _ => false

/-- Whether an event is an image-extraction event. -/
def isImagesEv : Ev → Bool
  | Ev.images _ => true
  | _ => false

theorem pageEvProgram_filter_text (save : Bool) (p : Nat) (pg : Page) :
    (pageEvProgram save p pg).filter isTextEv = [Ev.text p] := by
  unfold pageEvProgram
  by_cases ht : truthyText pg.text <;> by_cases hs : save = true <;>
    simp [ht, hs, isTextEv, List.filter_append]

theorem traceProgramFrom_filter_text (save : Bool) :
    ∀ (k : Nat) (pages : List Page),
      (traceProgramFrom save k pages).filter isTextEv =
        (List.range pages.length).map (fun i => Ev.text (k + i)) := by
  intro k pages
  induction pages generalizing k with
  | nil => simp [traceProgramFrom]
  | cons pg rest ih =>
    simp only [traceProgramFrom, List.filter_append, pageEvProgram_filter_text,
      List.length_cons, List.range_succ_eq_map, List.map_cons, List.map_map, ih (k + 1)]
    simp only [List.singleton_append, Nat.add_zero, List.cons.injEq, true_and]
    apply List.map_congr_left
    intro i hi
    simp [Function.comp]
    omega

theorem pageEvProgram_sublist (save : Bool) :
    ∀ (k : Nat) (pages : List Page) (i : Nat) (pg : Page),
      pages.get? i = some pg →
      List.Sublist (pageEvProgram save (k + i) pg) (traceProgramFrom save k pages) := by
  intro k pages
  induction pages generalizing k with
  | nil => intro i pg h; simp at h
  | cons q rest ih =>
    intro i pg h
    match i with
    | 0 =>
      simp only [List.get?] at h
      have hq : q = pg := by injection h
      rw [← hq, Nat.add_zero]
      simp only [traceProgramFrom]
      exact List.sublist_append_left _ _
    | i + 1 =>
      simp only [List.get?] at h
      have hrec := ih (k + 1) i pg h
      simp only [traceProgramFrom]
      have heq : k + (i + 1) = k + 1 + i := by omega
      rw [heq]
      exact hrec.trans (List.sublist_append_right _ _)

theorem traceNewFrom_no_images :
    ∀ (k : Nat) (pages : List Page) (e : Ev),
      e ∈ traceNewFrom k pages → isImagesEv e = false := by
  intro k pages
  induction pages generalizing k with
  | nil => simp [traceNewFrom]
  | cons pg rest ih =>
    intro e he
    simp only [traceNewFrom, List.mem_append] at he
    rcases he with h1 | h1
    · unfold pageEvNew at h1
      by_cases ht : truthyText pg.text
      · simp [ht] at h1
        rcases h1 with h2 | h2 | h2 <;> simp [h2, isImagesEv]
      · simp [ht] at h1
        rcases h1 with h2 | h2 <;> simp [h2, isImagesEv]
    · exact ih (k + 1) e h1

/-! ### Concrete example documents used by the witnesses and
counterexamples -/

/-- An embedded image whose extraction succeeds. -/
def okImg : FitzImage :=
  { extractOk := true, ext := "png", width := 4, height := 3, byteSize := 2048 }

/-- An embedded image whose extraction raises inside the per-image `try`
block. -/
def badImg : FitzImage :=
  { extractOk := false, ext := "jpeg", width := 0, height := 0, byteSize := 0 }

/-- The single page of the demo document. -/
def demoPage : Page :=
  { text := some "id 7", tables := [], fitzImages := [okImg],
    getImagesFails := false, plumberImages := 1 }

/-- A one-page document with text and one lightweight image entry. -/
def demoPdf : PDF := { openOk := true, pages := [demoPage] }

/-- A page with a corrupt second image among three embedded images. -/
def imgFailPage : Page :=
  { text := some "x", tables := [], fitzImages := [okImg, badImg, okImg],
    getImagesFails := false, plumberImages := 0 }

/-- A document whose first page has a corrupt second image (of three) and
whose second page has one good image and no text. -/
def imgFailPdf : PDF :=
  { openOk := true
    pages := [imgFailPage,
              { text := none, tables := [], fitzImages := [okImg],
                getImagesFails := false, plumberImages := 0 }] }

/-- A document whose first page makes `page.get_images` itself raise. -/
def pageFailPdf : PDF :=
  { openOk := true
    pages := [{ text := some "x", tables := [], fitzImages := [],
                getImagesFails := true, plumberImages := 0 }] }

/-- A path that does not open as a PDF. -/
def badPdf : PDF := { openOk := false, pages := [] }

/-- The URL example input of the specification. -/
def urlDupInput : String := "see http://a.com, and http://a.com again"

/-- The number example input of the specification. -/
def numInput : String := "Total: 42 items, -3.5 kg, and 3."

/-! ## Claim theorems -/

/-- Claim C1 (confirmed).  The number recognizer returns the ordered,
non-deduplicated sequence of tokens of the regex `-?\d+\.?\d*` in
left-to-right order: every token found belongs to the declarative
language of that pattern and is non-empty, a token containing a dot
parses as a floating-point value and any other token as an integer, and
on the example input it returns `[42 (int), -3.5 (float), 3.0 (float)]`,
the bare trailing-dot token parsing as the float `3.0`. -/
theorem number_recognizer_spec :
    extract_numbers numInput = [PyNum.int 42, PyNum.float (mkRat (-7) 2), PyNum.float 3] ∧
    extract_numbers "1 and 1" = [PyNum.int 1, PyNum.int 1] ∧
    (∀ (l t : List Char), t ∈ findallNum l → IsNumToken t ∧ t ≠ []) ∧
    (∀ t : List Char, '.' ∈ t → ∃ q, parseNumToken t = PyNum.float q) ∧
    (∀ t : List Char, '.' ∉ t → ∃ i, parseNumToken t = PyNum.int i) := by
  refine ⟨by decide, by decide, fun l t ht => findallNum_sound l t ht, ?_, ?_⟩
  · intro t ht
    unfold parseNumToken
    rw [if_pos ht]
    exact ⟨_, rfl⟩
  · intro t ht
    unfold parseNumToken
    rw [if_neg ht]
    exact ⟨_, rfl⟩

/-- Witness for C1: the universally quantified part applied to the
concrete scan of `"x 42"`, whose only token is `42`. -/
theorem number_recognizer_spec_witness :
    IsNumToken ['4', '2'] ∧ ['4', '2'] ≠ ([] : List Char) :=
  number_recognizer_spec.2.2.1 "x 42".toList ['4', '2'] (by decide)

/-- Claim C2 counterexample.  The recognizer reports
`"http://a.com/x"`, whose body `a.com/x` contains `/`, a character that
is neither in the claimed literal symbol set nor part of a `%XX` octet:
the class `[$-_@.&+]` of the source is a code-point range, not the
literal set the claim lists. -/
theorem url_charset_counterexample :
    "http://a.com/x" ∈ extract_urls_set "see http://a.com/x" ∧
    ("http://a.com/x" : String) = "http://" ++ "a.com/x" ∧
    claimedBody ("a.com/x".toList) = false := by
  refine ⟨by decide, by decide, by decide⟩

/-- Claim C2 (corrected).  Every substring reported by the URL
recognizer consists of the scheme `http` or `https`, followed by `://`,
followed by a non-empty run of characters drawn from the class the code
actually uses: letters, digits, the code-point RANGE `$`..`_` (which
also contains `/ : ; < = > ? @` and uppercase letters), and the symbols
`! * \ ( ) ,` — not the literal symbol set the claim lists (the `%XX`
alternative is subsumed because `%` lies inside the range). -/
theorem url_charset_amended :
    ∀ (s : String), ∀ u ∈ extract_urls_set s,
      ∃ sp body : List Char,
        (sp = [] ∨ sp = ['s']) ∧ body ≠ [] ∧ (∀ c ∈ body, urlChar c = true) ∧
        u.toList = 'h' :: 't' :: 't' :: 'p' :: (sp ++ ':' :: '/' :: '/' :: body) := by
  intro s u hu
  unfold extract_urls_set extract_urls at hu
  rw [List.mem_toFinset, List.mem_dedup] at hu
  obtain ⟨t, ht, rfl⟩ := List.mem_map.mp hu
  obtain ⟨sp, body, h1, h2, h3, h4⟩ := findallUrl_sound _ t ht
  exact ⟨sp, body, h1, h2, h3, h4⟩

/-- Witness for the amended C2: the reported URL `"http://a.b"` from a
concrete page text decomposes as scheme plus body of class characters. -/
theorem url_charset_amended_witness :
    ∃ sp body : List Char,
      (sp = [] ∨ sp = ['s']) ∧ body ≠ [] ∧ (∀ c ∈ body, urlChar c = true) ∧
      ("http://a.b" : String).toList =
        'h' :: 't' :: 't' :: 'p' :: (sp ++ ':' :: '/' :: '/' :: body) :=
  url_charset_amended "x http://a.b" "http://a.b" (by decide)

/-- Claim C3 counterexample.  On the example input the recognizer does
NOT return a single-element set: the first occurrence captures the
trailing comma and the second does not, so the two matches differ. -/
theorem url_set_example_counterexample :
    extract_urls_set urlDupInput ≠ {"http://a.com,"} := by decide

/-- Claim C3 (corrected).  The URL recognizer returns the distinct URL
substrings of one page text with duplicates removed (set semantics), but
on the input `"see http://a.com, and http://a.com again"` it returns the
TWO-element set `{"http://a.com,", "http://a.com"}`: the comma after the
first occurrence is captured by the character class, so the two matches
are distinct and survive deduplication. -/
theorem url_set_amended :
    extract_urls_set urlDupInput = {"http://a.com,", "http://a.com"} ∧
    ∀ s : String, (extract_urls s).Nodup :=
  ⟨by decide, fun _ => List.nodup_dedup _⟩

/-- Claim C4 counterexample.  In the pdf_reader_new.py variant, image
extraction for page 1 happens BEFORE the text, scan and table steps of
page 1: the fitz image pass runs over all pages before the pdfplumber
loop starts, so the per-page order claimed for both variants fails. -/
theorem pipeline_order_counterexample :
    traceNew demoPdf = [Ev.images 1, Ev.text 1, Ev.scan 1, Ev.tables 1] ∧
    (traceNew demoPdf).indexOf (Ev.images 1) < (traceNew demoPdf).indexOf (Ev.text 1) := by
  refine ⟨by decide, by decide⟩

/-- Claim C4 (corrected).  The pdf_reader_program.py variant behaves as
claimed: its trace contains exactly one text event per page, in
ascending 1-based page order, and for every page the block text → scan
(when the text is truthy) → tables → images occurs in that order.  In
the pdf_reader_new.py variant, however, ALL image extraction forms a
separate first pass: its trace splits into image events followed by a
part with no image event at all, so image extraction for a page happens
BEFORE that page gets its text and tables extracted, and every page is
visited twice (once per pass). -/
theorem pipeline_order_amended :
    (∀ (save : Bool) (pdf : PDF),
        (traceProgram save pdf).filter isTextEv =
          (List.range pdf.pages.length).map (fun i => Ev.text (i + 1))) ∧
    (∀ (save : Bool) (pdf : PDF) (i : Nat) (pg : Page),
        pdf.pages.get? i = some pg →
        List.Sublist (pageEvProgram save (i + 1) pg) (traceProgram save pdf)) ∧
    (∀ pdf : PDF, ∃ pre post : List Ev,
        traceNew pdf = pre ++ post ∧ (∀ e ∈ pre, isImagesEv e = true) ∧
        (∀ e ∈ post, isImagesEv e = false)) := by
  refine ⟨?_, ?_, ?_⟩
  · intro save pdf
    unfold traceProgram
    rw [traceProgramFrom_filter_text]
    apply List.map_congr_left
    intro i _
    rw [Nat.add_comm]
  · intro save pdf i pg h
    have hs := pageEvProgram_sublist save 1 pdf.pages i pg h
    rwa [Nat.add_comm] at hs
  · intro pdf
    refine ⟨(List.range pdf.pages.length).map (fun i => Ev.images (i + 1)),
      traceNewFrom 1 pdf.pages, rfl, ?_, traceNewFrom_no_images 1 pdf.pages⟩
    intro e he
    obtain ⟨i, -, rfl⟩ := List.mem_map.mp he
    rfl

/-- Witness for the amended C4: the program-variant trace of the demo
document keeps the claimed per-page block order. -/
theorem pipeline_order_amended_witness :
    List.Sublist (pageEvProgram true 1 demoPage) (traceProgram true demoPdf) :=
  pipeline_order_amended.2.1 true demoPdf 0 demoPage (by decide)

/-- Claim C5 (code bug).  pdf_reader_new.py opens the fitz document
without a `with` block or `try/finally`; when `page.get_images` raises
on some page, the exception propagates out of
`_extract_images_with_fitz` before `pdf_document.close()` runs, so the
source handle is NOT closed on that exit path.  Evaluated on a document
whose first page enumeration raises: the pass aborts, `extract_all`
returns nothing, and the handle stays open — while a document with
merely a corrupt image (whose failure IS caught per-image) still reaches
the close call. -/
theorem fitz_handle_leak :
    (extract_images_with_fitz true "extracted_images" pageFailPdf).closed = false ∧
    (extract_images_with_fitz true "extracted_images" pageFailPdf).ok = false ∧
    (extract_all_new true "extracted_images" pageFailPdf PDFData.empty).result = none ∧
    (extract_images_with_fitz true "extracted_images" imgFailPdf).closed = true := by
  refine ⟨by decide, by decide, by decide, by decide⟩

/-- Claim C6 counterexample.  Invoked with image saving enabled on a
path that does not open, both variants still create the image output
directory: `os.makedirs(output_dir, exist_ok=True)` runs BEFORE the open
attempt, so the run does abort with no result, but an output artifact
(the directory) exists on the filesystem. -/
theorem open_failure_artifacts_counterexample :
    (extract_all_program true "extracted_images" badPdf PDFData.empty).result = none ∧
    (extract_all_new true "extracted_images" badPdf PDFData.empty).result = none ∧
    (extract_all_program true "extracted_images" badPdf PDFData.empty).createdDirs =
      ["extracted_images"] ∧
    (extract_all_new true "extracted_images" badPdf PDFData.empty).createdDirs =
      ["extracted_images"] := by
  refine ⟨by decide, by decide, by decide, by decide⟩

/-- Claim C6 (corrected).  On a source that cannot be opened, both
variants abort with the open failure surfaced to the caller and no
partial result is returned; however the image output directory IS
created beforehand whenever image saving is enabled (and it is the only
artifact created). -/
theorem open_failure_amended (save : Bool) (dir : String) (pdf : PDF) (d : PDFData)
    (h : pdf.openOk = false) :
    (extract_all_program save dir pdf d).result = none ∧
    (extract_all_new save dir pdf d).result = none ∧
    (extract_all_program save dir pdf d).createdDirs = (if save then [dir] else []) ∧
    (extract_all_new save dir pdf d).createdDirs = (if save then [dir] else []) := by
  unfold extract_all_program extract_all_new
  simp [h]

/-- Witness for the amended C6 at the concrete unopenable document. -/
theorem open_failure_amended_witness :
    (extract_all_program false "d" badPdf PDFData.empty).result = none ∧
    (extract_all_new false "d" badPdf PDFData.empty).result = none ∧
    (extract_all_program false "d" badPdf PDFData.empty).createdDirs =
      (if false then ["d"] else []) ∧
    (extract_all_new false "d" badPdf PDFData.empty).createdDirs =
      (if false then ["d"] else []) :=
  open_failure_amended false "d" badPdf PDFData.empty (by decide)

/-- Claim C7 (confirmed).  In full-fidelity mode, when no page-level
enumeration fails, a failing individual image is caught: the pass
finishes normally (`ok`, and the handle is closed), the recorded entries
are exactly those of the successfully extracted images of every page
(the failed ones are omitted), one warning per failed image is logged
with its page and image number, and `extract_all` still returns the
full result for all pages. -/
theorem image_failure_isolation (save : Bool) (dir : String) (pdf : PDF) (d : PDFData)
    (h : ∀ pg ∈ pdf.pages, pg.getImagesFails = false) :
    extract_images_with_fitz save dir pdf =
      { images := docImagesSpec save dir 1 pdf.pages
        warnings := docWarnSpec 1 pdf.pages
        ok := true
        closed := true } ∧
    (pdf.openOk = true →
      (extract_all_new save dir pdf d).result = some (extract_all_new_data save dir pdf d)) := by
  refine ⟨extract_images_with_fitz_spec save dir pdf h, ?_⟩
  intro hopen
  unfold extract_all_new
  rw [extract_images_with_fitz_spec save dir pdf h]
  simp [hopen]

/-- Witness for C7 at the document with one corrupt image: the pass
closes the handle, omits the corrupt image, and logs one warning. -/
theorem image_failure_isolation_witness :
    extract_images_with_fitz true "extracted_images" imgFailPdf =
      { images := docImagesSpec true "extracted_images" 1 imgFailPdf.pages
        warnings := docWarnSpec 1 imgFailPdf.pages
        ok := true
        closed := true } :=
  (image_failure_isolation true "extracted_images" imgFailPdf PDFData.empty (by decide)).1

/-- Claim C8 (confirmed).  For every successful run of either variant,
the `pages_text` entries are exactly one entry per page whose extracted
text is truthy, carrying the 1-based page number and the extracted
content, in page order; the page numbers are strictly ascending and
every content is non-empty. -/
theorem pages_text_spec_holds (save : Bool) (dir : String) (pdf : PDF) (r : PDFData)
    (h : (extract_all_program save dir pdf PDFData.empty).result = some r ∨
         (extract_all_new save dir pdf PDFData.empty).result = some r) :
    r.text = pagesTextSpec 1 pdf.pages ∧
    List.Chain' (fun a b => a.page < b.page) r.text ∧
    ∀ e ∈ r.text, e.content ≠ "" := by
  have hr : r.text = pagesTextSpec 1 pdf.pages := by
    rcases h with h | h
    · unfold extract_all_program at h
      by_cases hopen : pdf.openOk = true
      · simp only [hopen, if_true] at h
        injection h with h
        rw [← h]
        unfold extract_all_program_data
        rw [plumberLoop_text]
        simp [PDFData.empty]
      · simp [hopen] at h
    · unfold extract_all_new at h
      by_cases hopen : pdf.openOk = true
      · simp only [hopen, if_true] at h
        by_cases hok : (extract_images_with_fitz save dir pdf).ok = true
        · simp only [hok, if_true] at h
          injection h with h
          rw [← h]
          unfold extract_all_new_data
          rw [plumberLoop_text]
          simp [PDFData.empty]
        · simp [hok] at h
      · simp [hopen] at h
  refine ⟨hr, ?_, ?_⟩
  · rw [hr]
    exact pagesTextSpec_chain 1 pdf.pages
  · rw [hr]
    exact pagesTextSpec_content 1 pdf.pages

/-- Witness for C8 at the demo document via the program variant. -/
theorem pages_text_spec_holds_witness :
    (extract_all_program_data true "extracted_images" demoPdf PDFData.empty).text =
      pagesTextSpec 1 demoPdf.pages ∧
    List.Chain' (fun a b => a.page < b.page)
      (extract_all_program_data true "extracted_images" demoPdf PDFData.empty).text :=
  ⟨(pages_text_spec_holds true "extracted_images" demoPdf _ (Or.inl (by decide))).1,
   (pages_text_spec_holds true "extracted_images" demoPdf _ (Or.inl (by decide))).2.1⟩

/-- Claim C9 (confirmed).  `extract_all` accumulates into the shared
instance dict: for any prior instance state, the state after a call is
the prior state with the freshly produced entries appended field-wise;
in particular a second call on the same instance doubles every entry
(shown concretely: the text entry of the demo document appears twice)
and `extract_all` is not idempotent on the instance state. -/
theorem extract_all_accumulates :
    (∀ (save : Bool) (dir : String) (pdf : PDF) (d : PDFData),
        extract_all_program_data save dir pdf d =
          PDFData.append d (extract_all_program_data save dir pdf PDFData.empty)) ∧
    (∀ (save : Bool) (dir : String) (pdf : PDF) (d : PDFData),
        extract_all_new_data save dir pdf d =
          PDFData.append d (extract_all_new_data save dir pdf PDFData.empty)) ∧
    extract_all_program_data true "extracted_images" demoPdf
        (extract_all_program_data true "extracted_images" demoPdf PDFData.empty) =
      PDFData.append (extract_all_program_data true "extracted_images" demoPdf PDFData.empty)
        (extract_all_program_data true "extracted_images" demoPdf PDFData.empty) ∧
    (extract_all_program_data true "extracted_images" demoPdf
        (extract_all_program_data true "extracted_images" demoPdf PDFData.empty)).text =
      [⟨1, "id 7"⟩, ⟨1, "id 7"⟩] ∧
    extract_all_program_data true "extracted_images" demoPdf
        (extract_all_program_data true "extracted_images" demoPdf PDFData.empty) ≠
      extract_all_program_data true "extracted_images" demoPdf PDFData.empty := by
  refine ⟨extract_all_program_data_append, extract_all_new_data_append,
    by decide, by decide, by decide⟩

/-- Claim C10 (confirmed).  In full-fidelity mode each recorded image
keeps as `image_number` the 1-based position of the image in the
embedded-image list of its page; a failed image leaves a gap instead of
renumbering the later ones, so recorded indices on a page need not be
contiguous (concretely `[1, 3]` on the page whose second image is
corrupt) while they restart at 1 on the next page. -/
theorem image_numbers_positions :
    (∀ (save : Bool) (dir : String) (pdf : PDF),
        (∀ pg ∈ pdf.pages, pg.getImagesFails = false) →
        ∀ (i : Nat) (pg : Page), pdf.pages.get? i = some pg →
        imageNumbersOnPage (extract_images_with_fitz save dir pdf).images (i + 1) =
          okPositions pg.fitzImages) ∧
    imageNumbersOnPage
      (extract_images_with_fitz true "extracted_images" imgFailPdf).images 1 = [1, 3] ∧
    imageNumbersOnPage
      (extract_images_with_fitz true "extracted_images" imgFailPdf).images 2 = [1] := by
  refine ⟨?_, by decide, by decide⟩
  intro save dir pdf h i pg hi
  rw [extract_images_with_fitz_spec save dir pdf h]
  have := docImagesSpec_on_page save dir 1 pdf.pages i pg hi
  rwa [Nat.add_comm] at this

/-- Witness for C10: the general part applied to the corrupt-image
document and its first page. -/
theorem image_numbers_positions_witness :
    imageNumbersOnPage
      (extract_images_with_fitz true "extracted_images" imgFailPdf).images 1 =
      okPositions imgFailPage.fitzImages :=
  image_numbers_positions.1 true "extracted_images" imgFailPdf (by decide) 0
    imgFailPage (by decide)

end PDFScraper
